import Mathlib

/-!
Shallow embedding of `src/dataset_generator.py` (Kaggle dataset generator:
USGS earthquakes + Nager.Date public holidays connectors), together with
proofs settling the specification claims about it.

Conventions of the embedding:
* machine-level HTTP responses are finite lists (one entry per request the
  session would issue); running out of the list models "no further response
  observed", so every run is finite;
* floats used for backoff delays (`backoff ** attempt`, `float(Retry-After)`)
  are modelled as rationals (`ℚ`); the values involved (1.5 and small powers)
  are exactly representable, so no rounding behaviour is lost;
* a pandas `DataFrame` is a `List` of typed rows; `pd.concat` is `List.append`,
  `drop_duplicates(subset=ks)` (default `keep='first'`) is `dropDuplicatesBy`,
  `sort_values(cols)` is `List.mergeSort` with the column comparator
  (both produce a sorted permutation; no claim below depends on which sorted
  permutation the library picks);
* CSV persistence is the identity on the row list (`to_csv` then `read_csv`
  round-trips the rows); the *write process* itself is modelled separately by
  `toCsvInPlace`, which records that `DataFrame.to_csv(path)` truncates the
  target and writes rows sequentially.
-/

namespace DatasetGen

/-! ## Resilient fetcher: `BackoffSession.get_json` (lines 69–97) -/

/-- One HTTP response as observed by `BackoffSession.get_json`.
`retryAfter` models the `Retry-After` header: `none` = header absent,
`some none` = header present but not parseable as a float
(`float(ra)` raises `ValueError`), `some (some d)` = header parses to `d`.
`body` stands for the parsed JSON payload (`resp.json()`). -/
structure Response where
  status : Nat
  retryAfter : Option (Option ℚ)
  body : Nat
  deriving DecidableEq, Repr

/-- Outcome of a `get_json` run: success with the parsed body, an HTTP error
raised by `resp.raise_for_status()`, or exhaustion of the modelled response
list. Each outcome records how many requests were issued and the sequence of
`time.sleep` delays performed, in order. -/
inductive FetchResult where
  | success (body : Nat) (requests : Nat) (sleeps : List ℚ)
  | httpError (status : Nat) (requests : Nat) (sleeps : List ℚ)
  | outOfResponses (requests : Nat) (sleeps : List ℚ)
  deriving DecidableEq, Repr

/-- Number of requests the run issued. -/
def FetchResult.requests : FetchResult → Nat
  | .success _ n _ => n
  | .httpError _ n _ => n
  | .outOfResponses n _ => n

/-- The HTTP status surfaced as an error, when the run ended in one. -/
def FetchResult.errorStatus : FetchResult → Option Nat
  | .httpError s _ _ => some s
  | _ => none

/-- Line 85: `resp.status_code in {429, 500, 502, 503, 504}`. -/
def retryable (s : Nat) : Bool :=
  s == 429 || s == 500 || s == 502 || s == 503 || s == 504

/-- Line 97: `resp.raise_for_status()` raises exactly for 4xx/5xx statuses. -/
def raisesForStatus (s : Nat) : Bool :=
  400 ≤ s && s < 600

/-- Lines 86–94: the delay slept before a retry at (already incremented)
attempt counter `a` — `float(Retry-After)` when the header is present and
parses, else `backoff ** attempt` (also on `ValueError`). -/
def retryDelay (backoff : ℚ) (a : Nat) (r : Response) : ℚ :=
  match r.retryAfter with
  | some (some d) => d
  | some none => backoff ^ a
  | none => backoff ^ a

/-- The `while True` loop of `get_json` (lines 79–97). `attempt` is the
counter before the `attempt += 1` of the next iteration; `sleeps` accumulates
performed delays in reverse. Consuming the response list head models issuing
one request. Note the faithful edge case: a status that is neither 200, nor
retryable-with-budget, nor 4xx/5xx falls through `raise_for_status()` without
raising and loops again without sleeping. -/
def getJsonAux (maxRetries : Nat) (backoff : ℚ) :
    Nat → List ℚ → List Response → FetchResult
  | attempt, sleeps, [] => .outOfResponses attempt sleeps.reverse
  | attempt, sleeps, r :: rest =>
    let a := attempt + 1
    if r.status == 200 then
      .success r.body a sleeps.reverse
    else if retryable r.status && a < maxRetries then
      getJsonAux maxRetries backoff a (retryDelay backoff a r :: sleeps) rest
    else if raisesForStatus r.status then
      .httpError r.status a sleeps.reverse
    else
      getJsonAux maxRetries backoff a sleeps rest

/-- `BackoffSession(max_retries, backoff).get_json(url)` run against the
response list `rs`. -/
def getJson (maxRetries : Nat) (backoff : ℚ) (rs : List Response) : FetchResult :=
  getJsonAux maxRetries backoff 0 [] rs

/-- Line 72: constructor default `max_retries: int = 5`. -/
def defaultMaxRetries : Nat := 5

/-- Line 72: constructor default `backoff: float = 1.5`. -/
def defaultBackoff : ℚ := 3 / 2

/-! ## DataFrame operations (pandas semantics used by the merge paths) -/

/-- Worker for `drop_duplicates(subset, keep='first')`: keep a row iff its
key has not been seen in an earlier kept row. `seen` is the set of keys of
rows already kept. -/
def dropDupAux {α κ : Type} [DecidableEq κ] (key : α → κ) :
    List κ → List α → List α
  | _, [] => []
  | seen, a :: l =>
    if key a ∈ seen then dropDupAux key seen l
    else a :: dropDupAux key (key a :: seen) l

/-- `DataFrame.drop_duplicates(subset=ks)` with the default `keep='first'`:
drop every row whose dedup-key tuple duplicates an earlier-appearing row. -/
def dropDuplicatesBy {α κ : Type} [DecidableEq κ] (key : α → κ) (l : List α) :
    List α :=
  dropDupAux key [] l

/-- `DataFrame.sort_values(cols)`: a sorted permutation of the rows under the
column comparator `le`. -/
def sortValues {α : Type} (le : α → α → Bool) (l : List α) : List α :=
  l.mergeSort le

/-! ## Row types of the two connectors -/

/-- One earthquake row as built in `usgs_fetch` (lines 144–164). Every field
coming from `.get(...)` may be missing (`None`/NaN), hence the `Option`s.
`time`/`updated` hold the ISO-8601 `...Z` strings of line 146–147. -/
structure QuakeRow where
  usgs_id : Option String
  time : Option String
  updated : Option String
  mag : Option ℚ
  place : Option String
  type : Option String
  status : Option String
  tsunami : Option Int
  sig : Option Int
  felt : Option Int
  cdi : Option ℚ
  mmi : Option ℚ
  alert : Option String
  lon : Option ℚ
  lat : Option ℚ
  depth_km : Option ℚ
  url : Option String
  detail : Option String
  title : Option String
  deriving DecidableEq, Repr

/-- One raw holiday object as returned by the Nager.Date API per year
(spec §6: a flat array of holiday objects), before the normalisation of
`holidays_fetch`. -/
structure RawHoliday where
  date : Option String
  localName : Option String
  name : Option String
  countryCode : Option String
  fixed : Option Bool
  global : Option Bool
  counties : Option (List String)
  launchYear : Option Int
  types : Option (List String)
  deriving DecidableEq, Repr

/-- One holiday row after `holidays_fetch` normalisation (lines 242–258):
`counties` flattened to a pipe-separated string, `year` column added,
camelCase columns renamed to snake_case. -/
structure HolidayRow where
  date : Option String
  local_name : Option String
  name : Option String
  countryCode : Option String
  is_fixed : Option Bool
  is_global : Option Bool
  counties : Option String
  launchYear : Option Int
  types : Option (List String)
  year : Int
  deriving DecidableEq, Repr

/-! ## Column comparators (pandas `sort_values`, `na_position='last'`) -/

/-- Python string comparison, non-strict: lexicographic by code point, a
proper prefix ordering before its extensions. -/
def charListLe : List Char → List Char → Bool
  | [], _ => true
  | _ :: _, [] => false
  | c :: cs, d :: ds => if c = d then charListLe cs ds else decide (c < d)

/-- Python string comparison, strict. -/
def charListLt : List Char → List Char → Bool
  | [], [] => false
  | [], _ :: _ => true
  | _ :: _, [] => false
  | c :: cs, d :: ds => if c = d then charListLt cs ds else decide (c < d)

/-- `s <= t` on Python strings. -/
def strLe (s t : String) : Bool := charListLe s.toList t.toList

/-- `s < t` on Python strings. -/
def strLt (s t : String) : Bool := charListLt s.toList t.toList

/-- pandas ordering of one string column: Python string order, with a
missing value (NaN) sorting last (`na_position='last'`, the default). -/
def optStrLe (x y : Option String) : Bool :=
  match x, y with
  | some s, some t => strLe s t
  | some _, none => true
  | none, some _ => false
  | none, none => true

/-- Strict version of `optStrLe`, for lexicographic composition. -/
def optStrLt (x y : Option String) : Bool :=
  match x, y with
  | some s, some t => strLt s t
  | some _, none => true
  | none, some _ => false
  | none, none => false

/-- Line 197 / line 167 comparator: `sort_values("time")` on earthquake rows. -/
def quakeLe (a b : QuakeRow) : Bool :=
  optStrLe a.time b.time

/-- Line 273 comparator: `sort_values(["date", "countryCode"])` on holiday
rows — lexicographic on the two columns. -/
def holidayLe (a b : HolidayRow) : Bool :=
  optStrLt a.date b.date || (a.date == b.date && optStrLe a.countryCode b.countryCode)

/-! ## Dedup keys -/

/-- Earthquake dedup key: line 196, `subset=["usgs_id"]`. -/
def quakeKey (r : QuakeRow) : Option String := r.usgs_id

/-- Holiday dedup key: line 272, `subset=["date", "countryCode"]`. -/
def holidayKey (r : HolidayRow) : Option String × Option String :=
  (r.date, r.countryCode)

/-! ## The merge-and-persist paths of the two commands -/

/-- The shared merge shape of both commands: concatenate the existing table
with the new rows (`pd.concat([old, df])`), drop later rows whose dedup key
duplicates an earlier one, then sort by the natural-key comparator. -/
def mergeTable {α κ : Type} [DecidableEq κ] (key : α → κ) (le : α → α → Bool)
    (old new : List α) : List α :=
  sortValues le (dropDuplicatesBy key (old ++ new))

/-- Lines 194–197 (`earthquakes_command`, merge branch): concatenate old then
new, `drop_duplicates(subset=["usgs_id"])`, `sort_values("time")`. -/
def quakeMerge (old new : List QuakeRow) : List QuakeRow :=
  mergeTable quakeKey quakeLe old new

/-- Lines 270–273 (`holidays_command`, merge branch): concatenate old then
new, `drop_duplicates(subset=["date", "countryCode"])`,
`sort_values(["date", "countryCode"])`. -/
def holidayMerge (old new : List HolidayRow) : List HolidayRow :=
  mergeTable holidayKey holidayLe old new

/-- Lines 192–200 of `earthquakes_command`: the table persisted to
`earthquakes.csv`. `existing` is the current on-disk table (`none` when
`csv_path.exists()` is false), `overwrite` is `args.overwrite`, `df` the
freshly fetched rows. -/
def quakePersistedTable (existing : Option (List QuakeRow)) (overwrite : Bool)
    (df : List QuakeRow) : List QuakeRow :=
  match existing, overwrite with
  | some old, false => quakeMerge old df
  | _, _ => df

/-- Lines 269–276 of `holidays_command`: the table persisted to
`public_holidays_<CC>.csv`. -/
def holidayPersistedTable (existing : Option (List HolidayRow)) (overwrite : Bool)
    (df : List HolidayRow) : List HolidayRow :=
  match existing, overwrite with
  | some old, false => holidayMerge old df
  | _, _ => df

/-! ## Adapters -/

/-- Lines 165–168 of `usgs_fetch`: after building `rows` from the GeoJSON
features (a `map` over the feature list, preserving feature order — lines
139–164), the DataFrame is sorted by `time` unless empty. This definition
models exactly those lines, taking the already-normalised rows as input. -/
def usgsFetchResult (rows : List QuakeRow) : List QuakeRow :=
  if rows.isEmpty then rows else sortValues quakeLe rows

/-- Lines 242–246 of `holidays_fetch`: normalise the raw objects of one year —
flatten `counties` to a pipe-separated string (`"|".join(x)` when a list,
`None` otherwise), add the `year` column; the camelCase→snake_case renames of
lines 250–258 are the field-name differences between `RawHoliday` and
`HolidayRow`. -/
def toHolidayRow (y : Int) (r : RawHoliday) : HolidayRow :=
  { date := r.date
    local_name := r.localName
    name := r.name
    countryCode := r.countryCode
    is_fixed := r.fixed
    is_global := r.global
    counties := r.counties.map (fun x => String.intercalate "|" x)
    launchYear := r.launchYear
    types := r.types
    year := y }

/-- `holidays_fetch(country, years)` (lines 232–260): one request per year, in
the order of `years`; each year's objects are normalised preserving API order
and the per-year frames are concatenated (`pd.concat(frames)`); empty years
contribute nothing. `api y` is the JSON array the holiday API returns for
year `y`. There is no sorting step in this function. -/
def holidaysFetch (years : List Int) (api : Int → List RawHoliday) :
    List HolidayRow :=
  (years.map (fun y => (api y).map (toHolidayRow y))).flatten

/-! ## `parse_years_span` (lines 223–229) -/

/-- Decimal digits of a Python `int()` literal: `some n` iff the characters
are a non-empty run of decimal digits. -/
def digitsToNat (cs : List Char) : Option Nat :=
  if cs.isEmpty then none
  else if cs.all Char.isDigit then
    some (cs.foldl (fun acc c => acc * 10 + (c.toNat - 48)) 0)
  else none

/-- Model of Python `int(s)` on the strings this program feeds it: an optional
sign followed by decimal digits. (Python additionally strips whitespace and
allows underscores; those inputs never arise here and are not modelled.) -/
def pyInt : List Char → Option Int
  | '-' :: cs => (digitsToNat cs).map (fun n => -(n : Int))
  | '+' :: cs => (digitsToNat cs).map (fun n => (n : Int))
  | cs => (digitsToNat cs).map (fun n => (n : Int))

/-- Python `s.split(":", 1)` given that `':' ∈ s`: the part before the first
colon and everything after it. -/
def splitOnceColon : List Char → List Char × List Char
  | [] => ([], [])
  | c :: cs =>
    if c = ':' then ([], cs)
    else
      let p := splitOnceColon cs
      (c :: p.1, p.2)

/-- Python `range(a, b)` as a list. -/
def pyRange (a b : Int) : List Int :=
  (List.range (b - a).toNat).map (fun (n : Nat) => a + (n : Int))

/-- `parse_years_span` (lines 223–229): `'2015:2025'` or `'2020'` to a list of
ints. Result is `none` when an `int()` conversion raises `ValueError`. -/
def parse_years_span (span : String) : Option (List Int) :=
  let cs := span.toList
  if cs.contains ':' then
    let p := splitOnceColon cs
    match pyInt p.1, pyInt p.2 with
    | some a, some b => some (pyRange a (b + 1))
    | _, _ => none
  else
    (pyInt cs).map (fun a => [a])

/-! ## The persist step as performed on disk -/

/-- How lines 198/200/274/276 write the table: `DataFrame.to_csv(csv_path)`
opens the target for writing (truncating it) and writes the rows
sequentially. `interruptedAfter = none` models an uninterrupted write;
`interruptedAfter = some k` models a failure after `k` rows have reached the
file, leaving exactly those `k` rows on disk regardless of the prior
content. -/
def toCsvInPlace {α : Type} (rows : List α) (interruptedAfter : Option Nat) :
    List α :=
  match interruptedAfter with
  | none => rows
  | some k => rows.take k

/-- Modelled from the spec: the atomicity contract of §4.3/§5 — "persist
atomically (write succeeds fully or the prior file remains unmodified on
failure)". The on-disk `result` of a persist of `rows` over `prior` is either
the complete new table or the untouched prior one. There is no code under
`src/` implementing this (no temporary-file-then-replace step exists); the
definition exists to be compared with `toCsvInPlace`. -/
def AtomicPersist {α : Type} (prior rows result : List α) : Prop :=
  result = rows ∨ result = prior

/-! ## Lemmas about `drop_duplicates` -/

section DropDup

variable {α κ : Type} [DecidableEq κ] {key : α → κ}

theorem key_not_mem_seen_of_mem_dropDupAux {seen : List κ} {l : List α} {a : α}
    (h : a ∈ dropDupAux key seen l) : key a ∉ seen := by
  induction l generalizing seen with
  | nil => simp [dropDupAux] at h
  | cons b t ih =>
    simp only [dropDupAux] at h
    split at h
    · exact ih h
    · rcases List.mem_cons.1 h with rfl | h
      · assumption
      · intro hmem
        exact ih h (List.mem_cons_of_mem _ hmem)

theorem mem_of_mem_dropDupAux {seen : List κ} {l : List α} {a : α}
    (h : a ∈ dropDupAux key seen l) : a ∈ l := by
  induction l generalizing seen with
  | nil => simp [dropDupAux] at h
  | cons b t ih =>
    simp only [dropDupAux] at h
    split at h
    · exact List.mem_cons_of_mem _ (ih h)
    · rcases List.mem_cons.1 h with rfl | h
      · exact List.mem_cons_self _ _
      · exact List.mem_cons_of_mem _ (ih h)

theorem nodup_keys_dropDupAux (seen : List κ) (l : List α) :
    ((dropDupAux key seen l).map key).Nodup := by
  induction l generalizing seen with
  | nil => simp [dropDupAux]
  | cons b t ih =>
    simp only [dropDupAux]
    split
    · exact ih seen
    · refine List.nodup_cons.2 ⟨?_, ih (key b :: seen)⟩
      intro hmem
      rcases List.mem_map.1 hmem with ⟨a, ha, hk⟩
      exact key_not_mem_seen_of_mem_dropDupAux ha (hk ▸ List.mem_cons_self _ _)

theorem mem_keys_dropDupAux {seen : List κ} {l : List α} {k : κ}
    (hmem : k ∈ l.map key) (hseen : k ∉ seen) :
    k ∈ (dropDupAux key seen l).map key := by
  induction l generalizing seen with
  | nil => simp at hmem
  | cons b t ih =>
    rw [List.map_cons] at hmem
    simp only [dropDupAux]
    split
    · rename_i hb
      rcases List.mem_cons.1 hmem with rfl | hmem
      · exact absurd hb hseen
      · exact ih hmem hseen
    · by_cases hkb : k = key b
      · rw [List.map_cons, hkb]
        exact List.mem_cons_self _ _
      · rcases List.mem_cons.1 hmem with rfl | hmem
        · exact absurd rfl hkb
        · rw [List.map_cons]
          refine List.mem_cons_of_mem _ (ih hmem ?_)
          simp only [List.mem_cons, not_or]
          exact ⟨hkb, hseen⟩

theorem dropDupAux_nil_of_seen {seen : List κ} {l : List α}
    (h : ∀ b ∈ l, key b ∈ seen) : dropDupAux key seen l = [] := by
  induction l with
  | nil => rfl
  | cons b t ih =>
    simp only [dropDupAux, h b (List.mem_cons_self _ _), if_true]
    exact ih fun a ha => h a (List.mem_cons_of_mem _ ha)

theorem dropDupAux_append_absorb {seen : List κ} {l₁ l₂ : List α}
    (h : ∀ b ∈ l₂, key b ∈ seen ∨ key b ∈ l₁.map key) :
    dropDupAux key seen (l₁ ++ l₂) = dropDupAux key seen l₁ := by
  induction l₁ generalizing seen with
  | nil =>
    simp only [List.nil_append]
    exact dropDupAux_nil_of_seen fun b hb => (h b hb).resolve_right (by simp)
  | cons a t ih =>
    simp only [List.cons_append, dropDupAux, List.append_eq]
    split
    · rename_i hmem
      refine ih fun b hb => ?_
      rcases h b hb with hs | hm
      · exact Or.inl hs
      · rw [List.map_cons] at hm
        rcases List.mem_cons.1 hm with hk | hk
        · exact Or.inl (hk ▸ hmem)
        · exact Or.inr hk
    · rw [ih]
      intro b hb
      rcases h b hb with hs | hm
      · exact Or.inl (List.mem_cons_of_mem _ hs)
      · rw [List.map_cons] at hm
        rcases List.mem_cons.1 hm with hk | hk
        · exact Or.inl (hk ▸ List.mem_cons_self _ _)
        · exact Or.inr hk

theorem dropDupAux_eq_self {seen : List κ} {l : List α}
    (hnodup : (l.map key).Nodup) (hdisj : ∀ a ∈ l, key a ∉ seen) :
    dropDupAux key seen l = l := by
  induction l generalizing seen with
  | nil => rfl
  | cons a t ih =>
    simp only [List.map_cons, List.nodup_cons] at hnodup
    simp only [dropDupAux, hdisj a (List.mem_cons_self _ _), if_false]
    rw [ih hnodup.2]
    intro b hb
    simp only [List.mem_cons]
    rintro (hk | hk)
    · exact hnodup.1 (hk ▸ List.mem_map_of_mem key hb)
    · exact hdisj b (List.mem_cons_of_mem _ hb) hk

theorem exists_left_rep {seen : List κ} {l₁ : List α} (l₂ : List α) {k : κ}
    (hmem : k ∈ l₁.map key) (hseen : k ∉ seen) :
    ∃ a, a ∈ dropDupAux key seen (l₁ ++ l₂) ∧ a ∈ l₁ ∧ key a = k := by
  induction l₁ generalizing seen with
  | nil => simp at hmem
  | cons b t ih =>
    rw [List.map_cons] at hmem
    simp only [List.cons_append, dropDupAux]
    split
    · rename_i hb
      rcases List.mem_cons.1 hmem with rfl | hmem
      · exact absurd hb hseen
      · rcases ih hmem hseen with ⟨c, hc1, hc2, hc3⟩
        exact ⟨c, hc1, List.mem_cons_of_mem _ hc2, hc3⟩
    · by_cases hkb : k = key b
      · exact ⟨b, List.mem_cons_self _ _, List.mem_cons_self _ _, hkb.symm⟩
      · rcases List.mem_cons.1 hmem with rfl | hmem
        · exact absurd rfl hkb
        · have hns : k ∉ key b :: seen := by
            simp only [List.mem_cons, not_or]
            exact ⟨hkb, hseen⟩
          rcases ih hmem hns with ⟨c, hc1, hc2, hc3⟩
          exact ⟨c, List.mem_cons_of_mem _ hc1, List.mem_cons_of_mem _ hc2, hc3⟩

theorem mem_left_of_key_mem {seen : List κ} {l₁ l₂ : List α} {a : α}
    (h : a ∈ dropDupAux key seen (l₁ ++ l₂)) (hk : key a ∈ l₁.map key) :
    a ∈ l₁ := by
  induction l₁ generalizing seen with
  | nil => simp at hk
  | cons b t ih =>
    rw [List.map_cons] at hk
    simp only [List.cons_append, dropDupAux] at h
    split at h
    · rename_i hb
      rcases List.mem_cons.1 hk with hab | hab
      · exact absurd (hab ▸ hb) (key_not_mem_seen_of_mem_dropDupAux h)
      · exact List.mem_cons_of_mem _ (ih h hab)
    · rcases List.mem_cons.1 h with rfl | h
      · exact List.mem_cons_self _ _
      · have hne : key a ≠ key b := by
          intro heq
          exact key_not_mem_seen_of_mem_dropDupAux h (heq ▸ List.mem_cons_self _ _)
        rcases List.mem_cons.1 hk with hab | hab
        · exact absurd hab hne
        · exact List.mem_cons_of_mem _ (ih h hab)

end DropDup

/-! ## Lemmas about `mergeTable` -/

section MergeTable

variable {α κ : Type} [DecidableEq κ]

theorem mergeTable_perm (key : α → κ) (le : α → α → Bool) (old new : List α) :
    List.Perm (mergeTable key le old new) (dropDuplicatesBy key (old ++ new)) :=
  List.mergeSort_perm _ le

theorem nodup_keys_mergeTable (key : α → κ) (le : α → α → Bool)
    (old new : List α) : ((mergeTable key le old new).map key).Nodup :=
  (((mergeTable_perm key le old new).map key).nodup_iff).2
    (nodup_keys_dropDupAux [] (old ++ new))

theorem mem_keys_mergeTable (key : α → κ) (le : α → α → Bool)
    {old new : List α} {k : κ} (h : k ∈ (old ++ new).map key) :
    k ∈ (mergeTable key le old new).map key :=
  (((mergeTable_perm key le old new).map key).mem_iff).2
    (mem_keys_dropDupAux h (List.not_mem_nil k))

theorem length_mergeTable_idem (key : α → κ) (le : α → α → Bool)
    (old new : List α) :
    (mergeTable key le (mergeTable key le old new) new).length =
      (mergeTable key le old new).length := by
  have hkeys : ∀ b ∈ new, key b ∈ (mergeTable key le old new).map key := by
    intro b hb
    exact mem_keys_mergeTable key le
      (List.mem_map_of_mem key (List.mem_append_right old hb))
  have habs : dropDuplicatesBy key (mergeTable key le old new ++ new) =
      dropDuplicatesBy key (mergeTable key le old new) :=
    dropDupAux_append_absorb fun b hb => Or.inr (hkeys b hb)
  have hself : dropDuplicatesBy key (mergeTable key le old new) =
      mergeTable key le old new :=
    dropDupAux_eq_self (nodup_keys_mergeTable key le old new)
      (fun a _ => List.not_mem_nil _)
  calc (mergeTable key le (mergeTable key le old new) new).length
      = (dropDuplicatesBy key (mergeTable key le old new ++ new)).length :=
        List.length_mergeSort _
    _ = (mergeTable key le old new).length := by rw [habs, hself]

theorem mergeTable_keeps_first (key : α → κ) (le : α → α → Bool)
    {old : List α} (new : List α) {k : κ} (hk : k ∈ old.map key) :
    ∃ a, a ∈ mergeTable key le old new ∧ a ∈ old ∧ key a = k := by
  rcases exists_left_rep new hk (List.not_mem_nil k) with ⟨a, h1, h2, h3⟩
  exact ⟨a, ((mergeTable_perm key le old new).mem_iff).2 h1, h2, h3⟩

theorem mergeTable_mem_old_of_key (key : α → κ) (le : α → α → Bool)
    {old new : List α} {a : α} (ha : a ∈ mergeTable key le old new)
    (hk : key a ∈ old.map key) : a ∈ old :=
  mem_left_of_key_mem (((mergeTable_perm key le old new).mem_iff).1 ha) hk

end MergeTable

/-! ## The column comparators are transitive and total -/

theorem charListLe_trans {x y z : List Char} (h1 : charListLe x y = true)
    (h2 : charListLe y z = true) : charListLe x z = true := by
  induction x generalizing y z with
  | nil => rfl
  | cons c cs ih =>
    cases y with
    | nil => simp [charListLe] at h1
    | cons d ds =>
      cases z with
      | nil => simp [charListLe] at h2
      | cons e es =>
        simp only [charListLe] at h1 h2 ⊢
        by_cases hcd : c = d
        · subst hcd
          rw [if_pos rfl] at h1
          by_cases hce : c = e
          · subst hce
            rw [if_pos rfl] at h2 ⊢
            exact ih h1 h2
          · rw [if_neg hce] at h2 ⊢
            exact h2
        · rw [if_neg hcd, decide_eq_true_eq] at h1
          by_cases hde : d = e
          · subst hde
            rw [if_neg hcd, decide_eq_true_eq]
            exact h1
          · rw [if_neg hde, decide_eq_true_eq] at h2
            have hce : c < e := lt_trans h1 h2
            rw [if_neg (ne_of_lt hce), decide_eq_true_eq]
            exact hce

theorem charListLe_total (x y : List Char) :
    (charListLe x y || charListLe y x) = true := by
  induction x generalizing y with
  | nil => simp [charListLe]
  | cons c cs ih =>
    cases y with
    | nil => simp [charListLe]
    | cons d ds =>
      simp only [charListLe]
      by_cases hcd : c = d
      · subst hcd
        rw [if_pos rfl, if_pos rfl]
        exact ih ds
      · rw [if_neg hcd, if_neg (Ne.symm hcd)]
        rcases lt_or_gt_of_ne hcd with h | h <;> simp [h]

theorem charListLt_trans {x y z : List Char} (h1 : charListLt x y = true)
    (h2 : charListLt y z = true) : charListLt x z = true := by
  induction x generalizing y z with
  | nil =>
    cases y with
    | nil => simp [charListLt] at h1
    | cons d ds =>
      cases z with
      | nil => simp [charListLt] at h2
      | cons e es => rfl
  | cons c cs ih =>
    cases y with
    | nil => simp [charListLt] at h1
    | cons d ds =>
      cases z with
      | nil => simp [charListLt] at h2
      | cons e es =>
        simp only [charListLt] at h1 h2 ⊢
        by_cases hcd : c = d
        · subst hcd
          rw [if_pos rfl] at h1
          by_cases hce : c = e
          · subst hce
            rw [if_pos rfl] at h2 ⊢
            exact ih h1 h2
          · rw [if_neg hce] at h2 ⊢
            exact h2
        · rw [if_neg hcd, decide_eq_true_eq] at h1
          by_cases hde : d = e
          · subst hde
            rw [if_neg hcd, decide_eq_true_eq]
            exact h1
          · rw [if_neg hde, decide_eq_true_eq] at h2
            have hce : c < e := lt_trans h1 h2
            rw [if_neg (ne_of_lt hce), decide_eq_true_eq]
            exact hce

theorem charListLt_total_of_ne {x y : List Char} (h : x ≠ y) :
    (charListLt x y || charListLt y x) = true := by
  induction x generalizing y with
  | nil =>
    cases y with
    | nil => exact absurd rfl h
    | cons d ds => simp [charListLt]
  | cons c cs ih =>
    cases y with
    | nil => simp [charListLt]
    | cons d ds =>
      simp only [charListLt]
      by_cases hcd : c = d
      · subst hcd
        rw [if_pos rfl, if_pos rfl]
        exact ih fun hh => h (by rw [hh])
      · rw [if_neg hcd, if_neg (Ne.symm hcd)]
        rcases lt_or_gt_of_ne hcd with hlt | hlt <;> simp [hlt]

theorem toList_ne_of_ne {s t : String} (h : s ≠ t) : s.toList ≠ t.toList := by
  intro hd
  refine h ?_
  cases s
  cases t
  simp only [String.toList] at hd
  rw [hd]

theorem optStrLe_trans {x y z : Option String} (h1 : optStrLe x y = true)
    (h2 : optStrLe y z = true) : optStrLe x z = true := by
  cases x with
  | none =>
    cases y with
    | none => exact h2
    | some t => simp [optStrLe] at h1
  | some s =>
    cases z with
    | none => simp [optStrLe]
    | some u =>
      cases y with
      | none => simp [optStrLe] at h2
      | some t =>
        simp only [optStrLe, strLe] at h1 h2 ⊢
        exact charListLe_trans h1 h2

theorem optStrLe_total (x y : Option String) :
    (optStrLe x y || optStrLe y x) = true := by
  cases x with
  | none => cases y <;> simp [optStrLe]
  | some s =>
    cases y with
    | none => simp [optStrLe]
    | some t =>
      simp only [optStrLe, strLe]
      exact charListLe_total s.toList t.toList

theorem optStrLt_trans {x y z : Option String} (h1 : optStrLt x y = true)
    (h2 : optStrLt y z = true) : optStrLt x z = true := by
  cases x with
  | none => cases y <;> simp [optStrLt] at h1
  | some s =>
    cases z with
    | none => cases y <;> simp [optStrLt]
    | some u =>
      cases y with
      | none => simp [optStrLt] at h2
      | some t =>
        simp only [optStrLt, strLt] at h1 h2 ⊢
        exact charListLt_trans h1 h2

theorem optStrLt_total_of_ne {x y : Option String} (h : x ≠ y) :
    (optStrLt x y || optStrLt y x) = true := by
  cases x with
  | none =>
    cases y with
    | none => exact absurd rfl h
    | some t => simp [optStrLt]
  | some s =>
    cases y with
    | none => simp [optStrLt]
    | some t =>
      simp only [optStrLt, strLt]
      refine charListLt_total_of_ne (toList_ne_of_ne fun hst => h ?_)
      rw [hst]

theorem quakeLe_trans (a b c : QuakeRow) (h1 : quakeLe a b) (h2 : quakeLe b c) :
    quakeLe a c :=
  optStrLe_trans h1 h2

theorem quakeLe_total (a b : QuakeRow) : (quakeLe a b || quakeLe b a) = true :=
  optStrLe_total a.time b.time

theorem holidayLe_trans (a b c : HolidayRow) (h1 : holidayLe a b)
    (h2 : holidayLe b c) : holidayLe a c := by
  simp only [holidayLe, Bool.or_eq_true, Bool.and_eq_true, beq_iff_eq] at h1 h2 ⊢
  rcases h1 with h1 | ⟨h1e, h1c⟩
  · rcases h2 with h2 | ⟨h2e, h2c⟩
    · exact Or.inl (optStrLt_trans h1 h2)
    · exact Or.inl (h2e ▸ h1)
  · rcases h2 with h2 | ⟨h2e, h2c⟩
    · exact Or.inl (h1e ▸ h2)
    · exact Or.inr ⟨h1e.trans h2e, optStrLe_trans h1c h2c⟩

theorem holidayLe_total (a b : HolidayRow) :
    (holidayLe a b || holidayLe b a) = true := by
  simp only [holidayLe, Bool.or_eq_true, Bool.and_eq_true, beq_iff_eq]
  by_cases hd : a.date = b.date
  · have hcc := optStrLe_total a.countryCode b.countryCode
    rw [Bool.or_eq_true] at hcc
    rcases hcc with hc | hc
    · exact Or.inl (Or.inr ⟨hd, hc⟩)
    · exact Or.inr (Or.inr ⟨hd.symm, hc⟩)
  · have hdd := optStrLt_total_of_ne hd
    rw [Bool.or_eq_true] at hdd
    rcases hdd with hl | hl
    · exact Or.inl (Or.inl hl)
    · exact Or.inr (Or.inl hl)

/-- Sorting with a transitive, total comparator yields a `Pairwise`-sorted
list. -/
theorem sortValues_pairwise {α : Type} {le : α → α → Bool}
    (htrans : ∀ a b c : α, le a b → le b c → le a c)
    (htotal : ∀ a b : α, le a b || le b a) (l : List α) :
    (sortValues le l).Pairwise (le · ·) :=
  List.sorted_mergeSort htrans htotal l

/-! ## Step lemmas for the fetch loop -/

theorem retryable_iff (s : Nat) :
    retryable s = true ↔ s = 429 ∨ s = 500 ∨ s = 502 ∨ s = 503 ∨ s = 504 := by
  simp only [retryable, Bool.or_eq_true, beq_iff_eq]
  tauto

theorem status_ne_200_of_retryable {s : Nat} (h : retryable s = true) :
    s ≠ 200 := by
  rcases (retryable_iff s).1 h with h | h | h | h | h <;> omega

theorem raisesForStatus_of_retryable {s : Nat} (h : retryable s = true) :
    raisesForStatus s = true := by
  rcases (retryable_iff s).1 h with h | h | h | h | h <;> subst h <;> rfl

/-- One retried request: a retryable status with remaining budget consumes the
response, sleeps `retryDelay`, and loops. -/
theorem getJsonAux_retry_step (mr : Nat) (b : ℚ) (attempt : Nat) (s : List ℚ)
    (r : Response) (rest : List Response) (hre : retryable r.status = true)
    (hlt : attempt + 1 < mr) :
    getJsonAux mr b attempt s (r :: rest) =
      getJsonAux mr b (attempt + 1) (retryDelay b (attempt + 1) r :: s) rest := by
  have h200 := status_ne_200_of_retryable hre
  simp only [getJsonAux]
  rw [if_neg (by simp [h200]), if_pos (by simp [hre, hlt])]

/-- One successful request: a 200 returns the parsed body at once. -/
theorem getJsonAux_success_step (mr : Nat) (b : ℚ) (attempt : Nat) (s : List ℚ)
    (r : Response) (rest : List Response) (h : r.status = 200) :
    getJsonAux mr b attempt s (r :: rest) =
      .success r.body (attempt + 1) s.reverse := by
  simp only [getJsonAux]
  rw [if_pos (by simp [h])]

/-- One fatal request: a non-200 status that does not enter the retry branch
and is a 4xx/5xx raises immediately. -/
theorem getJsonAux_fatal_step (mr : Nat) (b : ℚ) (attempt : Nat) (s : List ℚ)
    (r : Response) (rest : List Response) (h200 : r.status ≠ 200)
    (hnr : (retryable r.status && decide (attempt + 1 < mr)) = false)
    (hraise : raisesForStatus r.status = true) :
    getJsonAux mr b attempt s (r :: rest) =
      .httpError r.status (attempt + 1) s.reverse := by
  simp only [getJsonAux]
  rw [if_neg (by simp [h200]), if_neg (by simp [hnr]), if_pos hraise]

/-! ## Concrete tables used as inputs below -/

/-- An earthquake row with the given id and time and every other field
missing (as for an event whose optional properties are absent). -/
def quakeRowOf (id t : String) : QuakeRow :=
  { usgs_id := some id, time := some t, updated := none, mag := none
    place := none, type := none, status := none, tsunami := none, sig := none
    felt := none, cdi := none, mmi := none, alert := none, lon := none
    lat := none, depth_km := none, url := none, detail := none, title := none }

/-- A two-row on-disk `earthquakes.csv` from an earlier run. -/
def priorQuakeTable : List QuakeRow :=
  [quakeRowOf "us7000aaaa" "2024-01-01T00:00:00Z",
   quakeRowOf "us7000cccc" "2024-01-03T00:00:00Z"]

/-- A freshly fetched row set with one new event later than the existing
ones. -/
def newQuakeRows : List QuakeRow :=
  [quakeRowOf "us7000bbbb" "2024-01-04T00:00:00Z"]

/-- A freshly fetched row that collides on `usgs_id` with the first existing
row but carries a revised time — as when upstream corrects an event. -/
def revisedQuakeRow : QuakeRow :=
  quakeRowOf "us7000aaaa" "2024-01-01T06:00:00Z"

/-- A raw holiday object with the given date, country `FR`, and no optional
sub-fields. -/
def rawHolidayOf (d nm : String) : RawHoliday :=
  { date := some d, localName := some nm, name := some nm
    countryCode := some "FR", fixed := some true, global := some true
    counties := none, launchYear := none, types := some ["Public"] }

/-- A holiday API that returns year 2020's holidays in non-chronological
order (Christmas before New Year), as nothing in the upstream contract
forbids. -/
def outOfOrderApi : Int → List RawHoliday := fun y =>
  if y = 2020 then
    [rawHolidayOf "2020-12-25" "Christmas Day", rawHolidayOf "2020-01-01" "New Year"]
  else []

/-! ## Lemmas about `parse_years_span` helpers -/

theorem splitOnceColon_append (la lb : List Char) (h : ':' ∉ la) :
    splitOnceColon (la ++ ':' :: lb) = (la, lb) := by
  induction la with
  | nil => simp [splitOnceColon]
  | cons c cs ih =>
    have hc : c ≠ ':' := fun heq => h (heq ▸ List.mem_cons_self _ _)
    simp only [List.cons_append, splitOnceColon, if_neg hc, List.append_eq]
    rw [ih fun hm => h (List.mem_cons_of_mem _ hm)]

theorem mem_pyRange (a b z : Int) : z ∈ pyRange a b ↔ a ≤ z ∧ z < b := by
  simp only [pyRange, List.mem_map, List.mem_range]
  constructor
  · rintro ⟨i, hi, rfl⟩
    show a ≤ a + (i : Int) ∧ a + (i : Int) < b
    omega
  · rintro ⟨h1, h2⟩
    refine ⟨(z - a).toNat, by omega, ?_⟩
    show a + ((z - a).toNat : Int) = z
    omega

/-! ## Claims -/

/-- C1: the claim asserts that the persist step of a merge (overwrite unset,
existing file present) is atomic — the write succeeds fully or the prior
on-disk table remains unmodified. The code persists with a plain in-place
`combined.to_csv(csv_path)` (lines 198, 274): the target is truncated and
rewritten sequentially, with no temporary-location-then-replace step
anywhere. Evaluating that write at a concrete merge interrupted after 2 of
its 3 rows leaves a table that is neither the full merged table nor the
prior one — the file is left partially written, violating the claim. -/
theorem claimC1 :
    quakePersistedTable (some priorQuakeTable) false newQuakeRows =
      priorQuakeTable ++ newQuakeRows ∧
    toCsvInPlace (priorQuakeTable ++ newQuakeRows) (some 1) =
      [quakeRowOf "us7000aaaa" "2024-01-01T00:00:00Z"] ∧
    ¬ AtomicPersist priorQuakeTable (priorQuakeTable ++ newQuakeRows)
        (toCsvInPlace (priorQuakeTable ++ newQuakeRows) (some 1)) := by
  refine ⟨?_, by decide, ?_⟩
  · show quakeMerge priorQuakeTable newQuakeRows = _
    unfold quakeMerge mergeTable sortValues
    have hdedup : dropDuplicatesBy quakeKey (priorQuakeTable ++ newQuakeRows) =
        priorQuakeTable ++ newQuakeRows := by decide
    rw [hdedup]
    exact List.mergeSort_of_sorted (by decide)
  · intro h
    rcases h with h | h <;> exact absurd h (by decide)

/-- C2, as stated, is false on the code: it says every 5xx status (with
budget remaining) is retried, but the retry set of line 85 is exactly
`{429, 500, 502, 503, 504}`. A 501 response — a 5xx status, with the retry
ceiling (default 5) not yet reached and a 200 available next — is not
retried: the fetcher raises after exactly one request, never issuing the
second. -/
theorem claimC2_counterexample :
    getJson defaultMaxRetries defaultBackoff
        [⟨501, none, 0⟩, ⟨200, none, 7⟩] = .httpError 501 1 [] ∧
    500 ≤ 501 ∧ 501 < 600 ∧ 1 < defaultMaxRetries := by
  refine ⟨by decide, by decide, by decide, by decide⟩

/-- C2 (amended): the retryable statuses are exactly 429, 500, 502, 503 and
504; such a status with the retry ceiling not yet reached causes a retry
(the loop sleeps and continues on the remaining responses), while any other
4xx or 5xx status — every 4xx other than 429 and every non-retryable 5xx
such as 501 or 505 — raises immediately, issuing no further request (the
outcome is fixed independently of the remaining responses). -/
theorem claimC2 :
    ∀ (mr : Nat) (b : ℚ) (attempt : Nat) (s : List ℚ) (r : Response)
      (rest : List Response),
    (retryable r.status = true ↔
      r.status = 429 ∨ r.status = 500 ∨ r.status = 502 ∨ r.status = 503 ∨
        r.status = 504) ∧
    (retryable r.status = true → attempt + 1 < mr →
      getJsonAux mr b attempt s (r :: rest) =
        getJsonAux mr b (attempt + 1) (retryDelay b (attempt + 1) r :: s) rest) ∧
    (400 ≤ r.status → r.status < 600 → retryable r.status = false →
      getJsonAux mr b attempt s (r :: rest) =
        .httpError r.status (attempt + 1) s.reverse) := by
  intro mr b attempt s r rest
  refine ⟨retryable_iff r.status, getJsonAux_retry_step mr b attempt s r rest, ?_⟩
  intro h400 h600 hre
  refine getJsonAux_fatal_step mr b attempt s r rest (by omega) (by simp [hre]) ?_
  simp only [raisesForStatus, Bool.and_eq_true, decide_eq_true_eq]
  exact ⟨h400, h600⟩

/-- Witness for C2 (amended) at concrete inputs: a 503 with budget left is
retried; a plain 404 and a non-retryable 5xx (501) each raise at once. -/
theorem claimC2_witness :
    getJsonAux 5 (3 / 2) 0 [] [⟨503, none, 0⟩] =
      getJsonAux 5 (3 / 2) 1 [retryDelay (3 / 2) 1 ⟨503, none, 0⟩] [] ∧
    getJsonAux 5 (3 / 2) 0 [] [⟨404, none, 0⟩] = .httpError 404 1 [] ∧
    getJsonAux 5 (3 / 2) 0 [] [⟨501, none, 0⟩, ⟨200, none, 7⟩] =
      .httpError 501 1 [] :=
  ⟨(claimC2 5 (3 / 2) 0 [] ⟨503, none, 0⟩ []).2.1 (by decide) (by decide),
   (claimC2 5 (3 / 2) 0 [] ⟨404, none, 0⟩ []).2.2 (by decide) (by decide)
     (by decide),
   (claimC2 5 (3 / 2) 0 [] ⟨501, none, 0⟩ [⟨200, none, 7⟩]).2.2 (by decide)
     (by decide) (by decide)⟩

/-- C3: with the default retry ceiling of 5 (line 72), a run in which every
response is a 503 issues exactly 5 requests — the first four retried, the
fifth raising the final HTTP error — and never a 6th: the outcome counts 5
requests and surfaces status 503 no matter how many further responses would
have been available. -/
theorem claimC3 :
    ∀ rs : List Response, 5 ≤ rs.length → (∀ r ∈ rs, r.status = 503) →
    (getJson defaultMaxRetries defaultBackoff rs).requests = 5 ∧
    (getJson defaultMaxRetries defaultBackoff rs).errorStatus = some 503 := by
  intro rs hlen hall
  rcases rs with _ | ⟨r1, _ | ⟨r2, _ | ⟨r3, _ | ⟨r4, _ | ⟨r5, rest⟩⟩⟩⟩⟩ <;>
    simp only [List.length] at hlen <;> try omega
  have h1 := hall r1 (by simp)
  have h2 := hall r2 (by simp)
  have h3 := hall r3 (by simp)
  have h4 := hall r4 (by simp)
  have h5 := hall r5 (by simp)
  unfold getJson defaultMaxRetries defaultBackoff
  rw [getJsonAux_retry_step _ _ _ _ _ _ (by rw [h1]; rfl) (by omega),
    getJsonAux_retry_step _ _ _ _ _ _ (by rw [h2]; rfl) (by omega),
    getJsonAux_retry_step _ _ _ _ _ _ (by rw [h3]; rfl) (by omega),
    getJsonAux_retry_step _ _ _ _ _ _ (by rw [h4]; rfl) (by omega),
    getJsonAux_fatal_step _ _ _ _ _ _ (by omega) (by rw [h5]; rfl)
      (by rw [h5]; rfl)]
  rw [h5]
  exact ⟨rfl, rfl⟩

/-- Witness for C3: five literal 503 responses. -/
theorem claimC3_witness :
    (getJson defaultMaxRetries defaultBackoff
        (List.replicate 5 ⟨503, none, 0⟩)).requests = 5 ∧
    (getJson defaultMaxRetries defaultBackoff
        (List.replicate 5 ⟨503, none, 0⟩)).errorStatus = some 503 :=
  claimC3 (List.replicate 5 ⟨503, none, 0⟩) (by decide) (by decide)

/-- C4: on the response sequence [429, 429, 200] the fetcher issues exactly
3 requests and returns the parsed body of the third; the first retry slept
the explicit `Retry-After` value 7 rather than the computed backoff 3/2, the
second slept the exponential backoff (3/2)² = 9/4. In general, whenever a
retried response carries a parseable `Retry-After` value `d`, the delay slept
for that retry is exactly `d`. -/
theorem claimC4 :
    (getJson defaultMaxRetries defaultBackoff
        [⟨429, some (some 7), 1⟩, ⟨429, none, 2⟩, ⟨200, none, 3⟩] =
      .success 3 3 [7, 9 / 4]) ∧
    (∀ (mr : Nat) (b : ℚ) (attempt : Nat) (s : List ℚ) (r : Response)
        (rest : List Response) (d : ℚ),
      retryable r.status = true → attempt + 1 < mr →
      r.retryAfter = some (some d) →
      getJsonAux mr b attempt s (r :: rest) =
        getJsonAux mr b (attempt + 1) (d :: s) rest) := by
  constructor
  · show getJsonAux 5 (3 / 2) 0 [] _ = _
    rw [getJsonAux_retry_step _ _ _ _ _ _ (by rfl) (by omega),
      getJsonAux_retry_step _ _ _ _ _ _ (by rfl) (by omega),
      getJsonAux_success_step _ _ _ _ _ _ rfl]
    show FetchResult.success 3 3 [retryDelay (3 / 2) 2 ⟨429, none, 2⟩,
      retryDelay (3 / 2) 1 ⟨429, some (some 7), 1⟩].reverse = _
    norm_num [retryDelay]
  · intro mr b attempt s r rest d hre hlt hra
    have hd : retryDelay b (attempt + 1) r = d := by simp [retryDelay, hra]
    rw [getJsonAux_retry_step mr b attempt s r rest hre hlt, hd]

/-- Witness for C4's general part: a 429 carrying `Retry-After: 7` sleeps
exactly 7. -/
theorem claimC4_witness :
    getJsonAux 5 (3 / 2) 0 [] [⟨429, some (some 7), 0⟩] =
      getJsonAux 5 (3 / 2) 1 [7] [] :=
  claimC4.2 5 (3 / 2) 0 [] ⟨429, some (some 7), 0⟩ [] 7 (by decide) (by decide)
    rfl

/-- C5: merging the same new rows a second time (overwrite unset) leaves the
row count unchanged — the merge is idempotent in row count, for both the
seismic table (dedup on `usgs_id`) and the holiday table (dedup on
`(date, countryCode)`). -/
theorem claimC5 :
    ∀ (old new : List QuakeRow) (oldH newH : List HolidayRow),
    (quakeMerge (quakeMerge old new) new).length = (quakeMerge old new).length ∧
    (holidayMerge (holidayMerge oldH newH) newH).length =
      (holidayMerge oldH newH).length :=
  fun old new oldH newH =>
    ⟨length_mergeTable_idem quakeKey quakeLe old new,
     length_mergeTable_idem holidayKey holidayLe oldH newH⟩

/-- C6: after a merge (overwrite unset, existing table present) the dedup key
is unique across the resulting table: the list of key values has no
duplicate, for both connectors. -/
theorem claimC6 :
    ∀ (old new : List QuakeRow) (oldH newH : List HolidayRow),
    ((quakeMerge old new).map quakeKey).Nodup ∧
    ((holidayMerge oldH newH).map holidayKey).Nodup :=
  fun old new oldH newH =>
    ⟨nodup_keys_mergeTable quakeKey quakeLe old new,
     nodup_keys_mergeTable holidayKey holidayLe oldH newH⟩

/-- C7: first-seen-wins. Every key of the existing table is represented in
the merged table by a row of the existing table; every merged row whose key
already occurred in the existing table is an existing row; hence a newly
fetched row colliding with an existing key (and differing from every
existing row) is dropped. -/
theorem claimC7 :
    ∀ old new : List QuakeRow,
    (∀ k, k ∈ old.map quakeKey →
      ∃ r, r ∈ quakeMerge old new ∧ r ∈ old ∧ quakeKey r = k) ∧
    (∀ r, r ∈ quakeMerge old new → quakeKey r ∈ old.map quakeKey → r ∈ old) ∧
    (∀ r, r ∈ new → quakeKey r ∈ old.map quakeKey → r ∉ old →
      r ∉ quakeMerge old new) :=
  fun _old new =>
    ⟨fun _ hk => mergeTable_keeps_first quakeKey quakeLe new hk,
     fun _ hr hk => mergeTable_mem_old_of_key quakeKey quakeLe hr hk,
     fun _ _ hk hnot hmem =>
       hnot (mergeTable_mem_old_of_key quakeKey quakeLe hmem hk)⟩

/-- Witness for C7 at a concrete collision: a refetched row carrying the
existing id `us7000aaaa` with a revised time is dropped by the merge. -/
theorem claimC7_witness :
    revisedQuakeRow ∉ quakeMerge priorQuakeTable [revisedQuakeRow] :=
  (claimC7 priorQuakeTable [revisedQuakeRow]).2.2 revisedQuakeRow
    (by decide) (by decide) (by decide)

/-- C8, as stated, is false on the code: `holidays_fetch` (lines 232–260)
never sorts — it returns the per-year frames in request order with each
year's API order preserved — and on the first-run/overwrite path that
unsorted frame is written verbatim (line 276). With an API that returns
Christmas before New Year for 2020, the adapter output and the first-run
persisted table are not sorted by `(date, countryCode)`. -/
theorem claimC8_counterexample :
    ¬ (holidaysFetch [2020] outOfOrderApi).Pairwise
        (fun a b => holidayLe a b = true) ∧
    holidayPersistedTable none false (holidaysFetch [2020] outOfOrderApi) =
      holidaysFetch [2020] outOfOrderApi := by
  refine ⟨?_, rfl⟩
  intro h
  have h12 : holidayLe (toHolidayRow 2020 (rawHolidayOf "2020-12-25" "Christmas Day"))
      (toHolidayRow 2020 (rawHolidayOf "2020-01-01" "New Year")) = true := by
    simpa [holidaysFetch, outOfOrderApi] using h
  exact absurd h12 (by decide)

/-- C8 (amended): the seismic adapter sorts its rows chronologically before
returning, and tables persisted by the merge path (overwrite unset, existing
table present) are sorted by the natural key for both connectors; the
holiday adapter, however, returns rows unsorted (fetch order), so first-run
or overwrite holiday tables keep that order. -/
theorem claimC8 :
    (∀ rows : List QuakeRow,
      (usgsFetchResult rows).Pairwise (fun a b => quakeLe a b = true)) ∧
    (∀ old new : List QuakeRow,
      (quakeMerge old new).Pairwise (fun a b => quakeLe a b = true)) ∧
    (∀ old new : List HolidayRow,
      (holidayMerge old new).Pairwise (fun a b => holidayLe a b = true)) ∧
    (∀ (years : List Int) (api : Int → List RawHoliday),
      holidaysFetch years api =
        (years.map (fun y => (api y).map (toHolidayRow y))).flatten) := by
  refine ⟨?_, ?_, ?_, fun years api => rfl⟩
  · intro rows
    cases rows with
    | nil => simp [usgsFetchResult]
    | cons a t =>
      simp only [usgsFetchResult, List.isEmpty_cons, if_neg]
      exact sortValues_pairwise quakeLe_trans quakeLe_total (a :: t)
  · intro old new
    exact sortValues_pairwise quakeLe_trans quakeLe_total _
  · intro old new
    exact sortValues_pairwise holidayLe_trans holidayLe_total _

/-- C9: `"2020:2022"` parses to `[2020, 2021, 2022]` and `"2020"` to
`[2020]`; in general, for any digit strings `A` and `B` parsed by `int()`,
the span `A:B` yields `range(int(A), int(B) + 1)` — the inclusive integer
range from `A` to `B` — and a colon-free `int()`-parseable string yields the
one-element list. -/
theorem claimC9 :
    (parse_years_span "2020:2022" = some [2020, 2021, 2022]) ∧
    (parse_years_span "2020" = some [2020]) ∧
    (∀ (la lb : List Char) (x y : Int), ':' ∉ la →
      pyInt la = some x → pyInt lb = some y →
      parse_years_span (String.mk (la ++ ':' :: lb)) =
        some (pyRange x (y + 1)) ∧
      ∀ z : Int, z ∈ pyRange x (y + 1) ↔ x ≤ z ∧ z ≤ y) ∧
    (∀ (l : List Char) (x : Int), ':' ∉ l → pyInt l = some x →
      parse_years_span (String.mk l) = some [x]) := by
  refine ⟨by decide, by decide, ?_, ?_⟩
  · intro la lb x y hna hx hy
    constructor
    · have hcont : (la ++ ':' :: lb).contains ':' = true := by
        simp [List.contains, List.elem_eq_mem]
      unfold parse_years_span
      simp only [String.toList, hcont, if_true, splitOnceColon_append la lb hna,
        hx, hy]
    · intro z
      rw [mem_pyRange]
      omega
  · intro l x hna hx
    have hcont : l.contains ':' = false := by
      simp only [List.contains, List.elem_eq_mem, decide_eq_false_iff_not]
      exact hna
    unfold parse_years_span
    simp only [String.toList, hcont, Bool.false_eq_true, if_false, hx,
      Option.map_some']

/-- Witness for C9's general parts at concrete digit strings. -/
theorem claimC9_witness :
    parse_years_span (String.mk (['2', '0', '1', '5'] ++ ':' ::
        ['2', '0', '1', '7'])) = some (pyRange 2015 2018) :=
  (claimC9.2.2.1 ['2', '0', '1', '5'] ['2', '0', '1', '7'] 2015 2017
    (by decide) (by decide) (by decide)).1

/-- C10: when overwrite is set or no existing table is present, the fetched
rows are written verbatim — no dedup-key filtering is applied — so a fetched
row set that itself contains two rows with an equal dedup key is persisted
with both rows intact. -/
theorem claimC10 :
    (∀ (ow : Bool) (df : List QuakeRow), quakePersistedTable none ow df = df) ∧
    (∀ (ex : Option (List QuakeRow)) (df : List QuakeRow),
      quakePersistedTable ex true df = df) ∧
    (∀ (ow : Bool) (df : List HolidayRow),
      holidayPersistedTable none ow df = df) ∧
    (∀ (ex : Option (List HolidayRow)) (df : List HolidayRow),
      holidayPersistedTable ex true df = df) := by
  refine ⟨?_, ?_, ?_, ?_⟩ <;> intro a df <;>
    first
    | rfl
    | (cases a <;> rfl)

end DatasetGen
